import Mathlib

/-!
A shallow embedding of the LSM-tree storage engine in `src/lib.rs`
(`LSMTree`, `SSTableManager` and their helper functions), together with
proofs about the embedded operations.

Modelling conventions:
* Rust `BTreeMap<String, V>` is modelled as a key-sorted association list
  `List (String × V)`; `mapInsert` mirrors `BTreeMap::insert` (overwrite on
  equal key, keep ascending byte/lexicographic key order) and `mapGet`
  mirrors `BTreeMap::get`.
* The data directory is modelled as `Disk`, an association list from the
  numeric segment-file id (the `<id>.sst` file name) to the file's lines.
  `writeln!` appends one line; the newline terminator itself is implicit
  (the model works at the granularity of `BufRead::lines`, which strips it).
* Code that `unwrap`s a fallible operation (opening a missing file,
  `read_kv_line` on a line without a delimiter) is modelled with
  `Except Unit`, `.error ()` standing for the panic.
* `sync_data` is a no-op on the model (the modelled disk is durable as soon
  as it is written); it is kept as an explicit step of the flush trace so
  that the order of effects inside `flush_memtable` is observable.
-/

abbrev Key := String
abbrev Value := String

/-- Byte marker used to denote a deletion in the SSTable files
(`const TOMBSTONE_MARKER: char` in the source). -/
def TOMBSTONE_MARKER : Char := '🪦'

/-- `TOMBSTONE_MARKER.to_string()`: the tombstone marker as a value string. -/
def tombstoneStr : String := TOMBSTONE_MARKER.toString

/-- Byte/code-point comparison of two characters, as `Ord` on Rust `char`
restricted to the code points of a `String` (UTF-8 byte order and code-point
order agree). -/
def charLt (a b : Char) : Bool := a.toNat < b.toNat

/-- Lexicographic order on character lists: Rust's `Ord` for `String`. -/
def strLtAux : List Char → List Char → Bool
  | _, [] => false
  | [], _ :: _ => true
  | a :: as, b :: bs =>
    if charLt a b then true
    else if charLt b a then false
    else strLtAux as bs

/-- Rust `String` ordering, used by `BTreeMap<String, _>`. -/
def strLt (a b : String) : Bool := strLtAux a.data b.data

/-- `BTreeMap::insert`: overwrite the entry with an equal key, otherwise
insert at the position keeping keys in ascending order. -/
def mapInsert {α : Type} : List (Key × α) → Key → α → List (Key × α)
  | [], k, v => [(k, v)]
  | (k', v') :: rest, k, v =>
    if strLt k k' then (k, v) :: (k', v') :: rest
    else if k = k' then (k, v) :: rest
    else (k', v') :: mapInsert rest k v

/-- `BTreeMap::get`: the value stored at the first entry with this key. -/
def mapGet {α : Type} : List (Key × α) → Key → Option α
  | [], _ => none
  | (k', v) :: rest, k => if k = k' then some v else mapGet rest k

/-- The in-memory buffer: `memtable: BTreeMap<String, Option<String>>`.
`some v` is a live write, `none` a tombstone. -/
abbrev Memtable := List (Key × Option Value)

/-- The data directory: numeric id of each `<id>.sst` file, with the file's
lines. -/
abbrev Disk := List (Nat × List String)

/-- Content of the segment file with the given id, if that file exists. -/
def diskFind : Disk → Nat → Option (List String)
  | [], _ => none
  | (i, c) :: rest, id => if id = i then some c else diskFind rest id

/-- Write a segment file: replace the content of the existing file with this
id, or create the file. -/
def diskWrite : Disk → Nat → List String → Disk
  | [], id, c => [(id, c)]
  | (i, c0) :: rest, id, c =>
    if i = id then (i, c) :: rest else (i, c0) :: diskWrite rest id c

/-- `fs::remove_file` for the segment file with the given id. -/
def diskRemove : Disk → Nat → Disk
  | [], _ => []
  | (i, c) :: rest, id => if i = id then rest else (i, c) :: diskRemove rest id

/-- `line.split(":")` on the underlying characters: split on every colon. -/
def splitColon : List Char → List (List Char)
  | [] => [[]]
  | c :: rest =>
    if c = ':' then [] :: splitColon rest
    else
      match splitColon rest with
      | [] => [[c]]
      | p :: ps => (c :: p) :: ps

/-- `read_kv_line`: split the line on `":"` and take the first two pieces;
a line with no colon makes the second `kv.next().unwrap()` panic (`none`). -/
def read_kv_line (line : String) : Option (String × String) :=
  match splitColon line.data with
  | k :: v :: _ => some (⟨k⟩, ⟨v⟩)
  | _ => none

/-- The struct `SSTableManager` (its `data_dir` field is the modelled
`Disk`, passed separately). -/
structure SSTableManager where
  next_sstable_id : Nat
  sstables : List Nat
  compaction_trigger : Nat
deriving Repr, DecidableEq

/-- `SSTableManager::new`. -/
def SSTableManager.new : SSTableManager :=
  { next_sstable_id := 0, sstables := [], compaction_trigger := 8 }

/-- `SSTableManager::new_sstable`: bump the id counter and open
`<id>.sst` in create+write+append mode (an existing file with that name
keeps its content; a missing one is created empty). -/
def new_sstable (mgr : SSTableManager) (disk : Disk) :
    (SSTableManager × Nat) × Disk :=
  let id := mgr.next_sstable_id + 1
  let disk' := if (diskFind disk id).isSome then disk else diskWrite disk id []
  (({ mgr with next_sstable_id := id }, id), disk')

/-- `SSTableManager::add_sstable`: push the id at the back of the queue. -/
def add_sstable (mgr : SSTableManager) (id : Nat) : SSTableManager :=
  { mgr with sstables := mgr.sstables ++ [id] }

/-- The scan loop inside `SSTableManager::get_sstable`: first line whose
parsed key equals `key` decides; a tombstone value and a missing key are
both reported as `none` (that conflation is in the source). A line that
`read_kv_line` cannot parse panics (`.error ()`). -/
def scanLines (key : Key) : List String → Except Unit (Option Value)
  | [] => .ok none
  | l :: rest =>
    match read_kv_line l with
    | none => .error ()
    | some (k, v) =>
      if k = key then
        .ok (if v = tombstoneStr then none else some v)
      else scanLines key rest

/-- `SSTableManager::get_sstable`: open `<id>.sst` (panic if missing) and
scan its lines for the key. -/
def get_sstable (disk : Disk) (sst_file_id : Nat) (key : Key) :
    Except Unit (Option Value) :=
  match diskFind disk sst_file_id with
  | none => .error ()
  | some lines => scanLines key lines

/-- `SSTableManager::recover`: list the `.sst` files of the data directory,
parse each file name back to its id, sort ascending, and install that as the
sstable queue.  `next_sstable_id` is not touched. -/
def recover (mgr : SSTableManager) (disk : Disk) : SSTableManager :=
  { mgr with
    sstables := List.insertionSort (fun a b => a ≤ b) (disk.map Prod.fst) }

/-- The struct `LSMTree`. -/
structure LSMTree where
  memtable : Memtable
  memtable_limit : Nat
  sstable_mgr : SSTableManager
deriving Repr, DecidableEq

/-- `LSMTree::new` over an existing data directory. -/
def LSMTree.new (disk : Disk) : LSMTree :=
  { memtable := [], memtable_limit := 10,
    sstable_mgr := recover SSTableManager.new disk }

/-- The whole system: the `LSMTree` value plus the data directory it works
against. -/
structure Sys where
  tree : LSMTree
  disk : Disk
deriving Repr, DecidableEq

/-- One line of `flush_memtable`'s write loop: `"{k}:{v}"` for a live value,
`"{k}:{TOMBSTONE_MARKER}"` for a tombstone. -/
def writeLines (mt : Memtable) : List String :=
  mt.map (fun e =>
    match e.2 with
    | some v => e.1 ++ ":" ++ v
    | none => e.1 ++ ":" ++ tombstoneStr)

/-- First stage of `LSMTree::flush_memtable` on a non-empty memtable:
`new_sstable` (allocate the id, open the file in append mode), write every
buffer entry in ascending key order, and `sync_data`. -/
def flushWrite (s : Sys) : Sys :=
  let r := new_sstable s.tree.sstable_mgr s.disk
  let id := r.1.2
  let d := r.2
  { tree := { s.tree with sstable_mgr := r.1.1 },
    disk := diskWrite d id (((diskFind d id).getD []) ++ writeLines s.tree.memtable) }

/-- Second stage of `LSMTree::flush_memtable`: `self.memtable.clear()`. -/
def flushClear (s : Sys) : Sys :=
  { s with tree := { s.tree with memtable := [] } }

/-- Third stage of `LSMTree::flush_memtable`:
`self.sstable_mgr.add_sstable(sst_id)`; the id registered is the one
`new_sstable` returned, which is the current `next_sstable_id`. -/
def flushRegister (s : Sys) : Sys :=
  { s with tree := { s.tree with
      sstable_mgr := add_sstable s.tree.sstable_mgr s.tree.sstable_mgr.next_sstable_id } }

/-- `LSMTree::flush_memtable`: no-op on an empty buffer, otherwise
write+sync, then clear, then register — in the order of the source. -/
def flush_memtable (s : Sys) : Sys :=
  if s.tree.memtable.isEmpty then s
  else flushRegister (flushClear (flushWrite s))

/-- The intermediate states a non-empty `flush_memtable` passes through, in
program order: after the synced write, after the clear, after the
registration. -/
def flushStates (s : Sys) : List Sys :=
  if s.tree.memtable.isEmpty then []
  else [flushWrite s, flushClear (flushWrite s),
        flushRegister (flushClear (flushWrite s))]

/-- `LSMTree::put`: insert into the memtable, then flush when the buffer
length equals the configured limit. -/
def put (s : Sys) (k v : String) : Sys :=
  let s' : Sys :=
    { s with tree := { s.tree with memtable := mapInsert s.tree.memtable k (some v) } }
  if s'.tree.memtable.length = s'.tree.memtable_limit then flush_memtable s' else s'

/-- `LSMTree::delete`: a put of `None` into the memtable; no limit check. -/
def delete (s : Sys) (k : String) : Sys :=
  { s with tree := { s.tree with memtable := mapInsert s.tree.memtable k none } }

/-- The read loop of `LSMTree::get` over the sstable queue, newest first:
stop at the first `Some`, keep scanning on `None`. -/
def scanSegs (disk : Disk) (k : Key) : List Nat → Except Unit (Option Value)
  | [] => .ok none
  | id :: rest =>
    match get_sstable disk id k with
    | .error e => .error e
    | .ok (some v) => .ok (some v)
    | .ok none => scanSegs disk k rest

/-- `LSMTree::get`: memtable first (live value or tombstone decides
immediately), otherwise scan the sstables from newest to oldest. -/
def Sys.get (s : Sys) (k : String) : Except Unit (Option Value) :=
  match mapGet s.tree.memtable k with
  | some (some v) => .ok (some v)
  | some none => .ok none
  | none => scanSegs s.disk k s.tree.sstable_mgr.sstables.reverse

/-- Run a list of `put`s in order. -/
def putSeq (s : Sys) (ps : List (String × String)) : Sys :=
  ps.foldl (fun s p => put s p.1 p.2) s

instance {e a : Type} [DecidableEq e] [DecidableEq a] : DecidableEq (Except e a)
  | .ok x, .ok y =>
    if h : x = y then .isTrue (by rw [h])
    else .isFalse (fun he => by cases he; exact h rfl)
  | .error x, .error y =>
    if h : x = y then .isTrue (by rw [h])
    else .isFalse (fun he => by cases he; exact h rfl)
  | .ok _, .error _ => .isFalse (fun he => by cases he)
  | .error _, .ok _ => .isFalse (fun he => by cases he)

/-- Parse every line of a segment with `read_kv_line`; the first malformed
line makes the whole read panic (`none`). -/
def parseAll (lines : List String) : Option (List (String × String)) :=
  lines.mapM read_kv_line

/-- Modelled from the spec: the two-pointer merge loop of
`SSTableManager::compact_sstables` (§4.5 steps 2–3), whose body is left as
TODO comments in the source.  Compare the current keys of both streams: on
equal keys the record of the younger (second-oldest) segment wins and both
streams advance; otherwise the smaller key is taken as-is and only its
stream advances; an exhausted stream drains the other one.  Records are
accumulated into a `BTreeMap<String, String>` (`mapInsert`).  The `fuel`
argument only bounds the recursion; the call site passes the total number
of records, which the loop never exceeds. -/
def mergeLoop : Nat → List (String × String) → List (String × String) →
    List (Key × Value) → List (Key × Value)
  | 0, _, _, acc => acc
  | fuel + 1, l1, l2, acc =>
    match l1, l2 with
    | [], [] => acc
    | [], (k2, v2) :: r2 => mergeLoop fuel [] r2 (mapInsert acc k2 v2)
    | (k1, v1) :: r1, [] => mergeLoop fuel r1 [] (mapInsert acc k1 v1)
    | (k1, v1) :: r1, (k2, v2) :: r2 =>
      if k1 = k2 then mergeLoop fuel r1 r2 (mapInsert acc k2 v2)
      else if strLt k1 k2 then mergeLoop fuel r1 ((k2, v2) :: r2) (mapInsert acc k1 v1)
      else mergeLoop fuel ((k1, v1) :: r1) r2 (mapInsert acc k2 v2)

/-- Modelled from the spec: `SSTableManager::compact_sstables`.  The early
bail-out when fewer than two sstables are cataloged is in the source; the
rest of the body is left as `todo!()` with step-by-step TODO comments, so it
is modelled from those comments and §4.5 of the spec: merge the two oldest
segments (`mergeLoop`), drop every tombstone from the accumulated result,
write the surviving records in ascending key order to a temp file, sync it,
remove the oldest segment's file, rename the temp file over the
second-oldest segment's file, and pop the oldest id off the front of the
queue. -/
def compact_sstables (s : Sys) : Except Unit Sys :=
  match s.tree.sstable_mgr.sstables with
  | id1 :: id2 :: rest =>
    match diskFind s.disk id1, diskFind s.disk id2 with
    | some ls1, some ls2 =>
      match parseAll ls1, parseAll ls2 with
      | some ps1, some ps2 =>
        let merged := mergeLoop (ps1.length + ps2.length) ps1 ps2 []
        let survivors := merged.filter (fun p => p.2 != tombstoneStr)
        let newLines := survivors.map (fun p => p.1 ++ ":" ++ p.2)
        let disk' := diskWrite (diskRemove s.disk id1) id2 newLines
        .ok { tree := { s.tree with
                sstable_mgr := { s.tree.sstable_mgr with sstables := id2 :: rest } },
              disk := disk' }
      | _, _ => .error ()
    | _, _ => .error ()
  | _ => .ok s

/-- `true` when no character of the list is the record field delimiter. -/
def noColon : List Char → Bool
  | [] => true
  | c :: rest => if c = ':' then false else noColon rest

/-- A key is well formed when it contains no field delimiter. -/
def wfKey (k : String) : Bool := noColon k.data

/-- A stored value is well formed when it contains no field delimiter and is
not the reserved tombstone marker. -/
def wfVal (v : String) : Bool := noColon v.data && (v != tombstoneStr)

/-- Well-formedness of one memtable entry: the key is delimiter-free, and a
live value is delimiter-free and distinct from the tombstone marker. -/
def wfEntry : Key × Option Value → Bool
  | (k, some v) => wfKey k && wfVal v
  | (k, none) => wfKey k

/-- Well-formedness of a whole memtable. -/
def wfMt (mt : Memtable) : Bool := mt.all wfEntry

/-- A state whose newer segment (id 2) holds a tombstone for `"k"` while the
older segment (id 1) still holds a live value for `"k"`. -/
def c1Sys : Sys :=
  { tree := { memtable := [], memtable_limit := 10,
              sstable_mgr := { next_sstable_id := 2, sstables := [1, 2],
                               compaction_trigger := 8 } },
    disk := [(1, ["k:v"]), (2, ["k:🪦"])] }

/-- A data directory already holding segment files `1.sst` and `2.sst`. -/
def c2Disk : Disk := [(1, ["a:b"]), (2, ["c:d"])]

/-- A freshly recovered engine over `c2Disk` with one pending write. -/
def c2Sys : Sys :=
  { tree := { LSMTree.new c2Disk with memtable := [("x", some "y")] },
    disk := c2Disk }

/-- A fresh engine with one pending write, about to flush. -/
def c3Sys : Sys :=
  { tree := { memtable := [("a", some "b")], memtable_limit := 10,
              sstable_mgr := SSTableManager.new },
    disk := [] }

/-- Two cataloged segments: the older (id 1) holds `k1 ↦ "old"` and a
tombstone for `k2`; the newer (id 2) holds `k1 ↦ "new"` and `k3 ↦ "v3"`. -/
def c4Sys : Sys :=
  { tree := { memtable := [], memtable_limit := 10,
              sstable_mgr := { next_sstable_id := 2, sstables := [1, 2],
                               compaction_trigger := 8 } },
    disk := [(1, ["k1:old", "k2:🪦"]), (2, ["k1:new", "k3:v3"])] }

theorem strLtAux_irrefl (l : List Char) : strLtAux l l = false := by
  induction l with
  | nil => rfl
  | cons c rest ih => simp [strLtAux, charLt, ih]

theorem strLt_irrefl (k : String) : strLt k k = false := strLtAux_irrefl k.data

theorem mapGet_insert_self {α : Type} (m : List (Key × α)) (k : Key) (v : α) :
    mapGet (mapInsert m k v) k = some v := by
  induction m with
  | nil => simp [mapInsert, mapGet]
  | cons e rest ih =>
    obtain ⟨k', v'⟩ := e
    by_cases h1 : strLt k k' = true
    · simp [mapInsert, h1, mapGet]
    · by_cases h2 : k = k'
      · simp [mapInsert, h1, h2, mapGet, strLt_irrefl]
      · simp [mapInsert, h1, h2, mapGet, ih]

theorem mapGet_insert_ne {α : Type} (m : List (Key × α)) (k j : Key) (v : α)
    (hne : j ≠ k) : mapGet (mapInsert m k v) j = mapGet m j := by
  induction m with
  | nil => simp [mapInsert, mapGet, hne]
  | cons e rest ih =>
    obtain ⟨k', v'⟩ := e
    by_cases h1 : strLt k k' = true
    · simp [mapInsert, h1, mapGet, hne]
    · by_cases h2 : k = k'
      · subst h2
        simp [mapInsert, h1, mapGet, hne]
      · simp [mapInsert, h1, h2, mapGet, ih]

theorem mapInsert_mapInsert {α : Type} (m : List (Key × α)) (k : Key) (a b : α) :
    mapInsert (mapInsert m k a) k b = mapInsert m k b := by
  induction m with
  | nil => simp [mapInsert, strLt_irrefl]
  | cons e rest ih =>
    obtain ⟨k', v'⟩ := e
    by_cases h1 : strLt k k' = true
    · simp [mapInsert, h1, strLt_irrefl]
    · by_cases h2 : k = k'
      · subst h2
        simp [mapInsert, h1, strLt_irrefl]
      · simp [mapInsert, h1, h2, ih]

theorem mapInsert_ne_nil {α : Type} (m : List (Key × α)) (k : Key) (v : α) :
    mapInsert m k v ≠ [] := by
  cases m with
  | nil => simp [mapInsert]
  | cons e rest =>
    obtain ⟨k', v'⟩ := e
    by_cases h1 : strLt k k' = true
    · simp [mapInsert, h1]
    · by_cases h2 : k = k' <;> simp [mapInsert, h1, h2, strLt_irrefl]

theorem mem_mapInsert {α : Type} {m : List (Key × α)} {k : Key} {v : α}
    {e : Key × α} (he : e ∈ mapInsert m k v) : e = (k, v) ∨ e ∈ m := by
  induction m with
  | nil => simp [mapInsert] at he; simp [he]
  | cons f rest ih =>
    obtain ⟨k', v'⟩ := f
    by_cases h1 : strLt k k' = true
    · simp only [mapInsert, h1, if_true, List.mem_cons] at he
      simpa [List.mem_cons] using he
    · by_cases h2 : k = k'
      · subst h2
        simp only [mapInsert, strLt_irrefl, Bool.false_eq_true, if_false,
          ite_true, if_true, List.mem_cons] at he
        rcases he with h | h
        · exact Or.inl h
        · exact Or.inr (List.mem_cons_of_mem _ h)
      · simp only [mapInsert, h1, h2, if_false, List.mem_cons,
          Bool.false_eq_true] at he
        rcases he with h | h
        · exact Or.inr (by simp [h])
        · rcases ih h with h3 | h3
          · exact Or.inl h3
          · exact Or.inr (List.mem_cons_of_mem _ h3)

theorem mapGet_none_length {α : Type} (m : List (Key × α)) (k : Key) (v : α)
    (h : mapGet m k = none) : (mapInsert m k v).length = m.length + 1 := by
  induction m with
  | nil => simp [mapInsert]
  | cons e rest ih =>
    obtain ⟨k', v'⟩ := e
    by_cases h2 : k = k'
    · simp [mapGet, h2] at h
    · rw [mapGet, if_neg h2] at h
      by_cases h1 : strLt k k' = true
      · simp [mapInsert, h1]
      · simp [mapInsert, h1, h2, ih h]

theorem wfMt_insert (m : Memtable) (k : Key) (v : Option Value)
    (hm : wfMt m = true) (he : wfEntry (k, v) = true) :
    wfMt (mapInsert m k v) = true := by
  rw [wfMt, List.all_eq_true]
  intro e hemem
  rcases mem_mapInsert hemem with h | h
  · rw [h]; exact he
  · exact List.all_eq_true.mp hm e h

theorem string_data_append (a b : String) : (a ++ b).data = a.data ++ b.data := rfl

theorem line_data (k w : String) : (k ++ ":" ++ w).data = k.data ++ ':' :: w.data := by
  rw [string_data_append, string_data_append]
  simp [List.append_assoc]

theorem splitColon_noColon (b : List Char) (h : noColon b = true) :
    splitColon b = [b] := by
  induction b with
  | nil => rfl
  | cons c rest ih =>
    by_cases hc : c = ':'
    · rw [noColon] at h; simp [hc] at h
    · rw [noColon, if_neg hc] at h
      simp [splitColon, hc, ih h]

theorem splitColon_append (a b : List Char) (h : noColon a = true) :
    splitColon (a ++ ':' :: b) = a :: splitColon b := by
  induction a with
  | nil => simp [splitColon]
  | cons c rest ih =>
    by_cases hc : c = ':'
    · rw [noColon] at h; simp [hc] at h
    · rw [noColon, if_neg hc] at h
      simp [splitColon, hc, ih h]

theorem splitColon_ne_nil (b : List Char) : splitColon b ≠ [] := by
  cases b with
  | nil => simp [splitColon]
  | cons c rest =>
    by_cases hc : c = ':'
    · simp [splitColon, hc]
    · rw [splitColon, if_neg hc]
      cases hsp : splitColon rest <;> simp

theorem read_kv_line_append (k w : String) (hk : noColon k.data = true)
    (hw : noColon w.data = true) :
    read_kv_line (k ++ ":" ++ w) = some (k, w) := by
  rw [read_kv_line, line_data, splitColon_append _ _ hk, splitColon_noColon _ hw]

theorem noColon_tombstoneStr : noColon tombstoneStr.data = true := by decide

theorem tombstoneStr_eq : tombstoneStr = "🪦" := by decide

theorem scanLines_writeLines (mt : Memtable) (k : Key) (h : wfMt mt = true) :
    scanLines k (writeLines mt) = .ok (mapGet mt k).join := by
  induction mt with
  | nil => simp [writeLines, scanLines, mapGet]
  | cons e rest ih =>
    obtain ⟨k', v'⟩ := e
    rw [wfMt, List.all_cons, Bool.and_eq_true] at h
    obtain ⟨he, hrest⟩ := h
    have ihr := ih hrest
    cases v' with
    | some w =>
      rw [wfEntry, Bool.and_eq_true] at he
      obtain ⟨hk', hw⟩ := he
      rw [wfVal, Bool.and_eq_true] at hw
      obtain ⟨hw1, hw2⟩ := hw
      rw [writeLines]
      rw [List.map_cons]
      rw [scanLines, read_kv_line_append _ _ hk' hw1]
      by_cases hkk : k' = k
      · subst hkk
        have : w ≠ tombstoneStr := by
          intro hcon
          rw [hcon] at hw2
          simp at hw2
        simp [this, mapGet]
      · dsimp only
        rw [if_neg hkk, mapGet, if_neg (Ne.symm hkk), ← writeLines]
        exact ihr
    | none =>
      rw [wfEntry] at he
      rw [writeLines]
      rw [List.map_cons]
      rw [scanLines, read_kv_line_append _ _ he noColon_tombstoneStr]
      by_cases hkk : k' = k
      · subst hkk
        simp [mapGet]
      · dsimp only
        rw [if_neg hkk, mapGet, if_neg (Ne.symm hkk), ← writeLines]
        exact ihr

theorem diskFind_diskWrite (d : Disk) (id j : Nat) (c : List String) :
    diskFind (diskWrite d id c) j = if j = id then some c else diskFind d j := by
  induction d with
  | nil => by_cases h : j = id <;> simp [diskWrite, diskFind, h]
  | cons e rest ih =>
    obtain ⟨i, c0⟩ := e
    by_cases h1 : i = id
    · subst h1
      by_cases h2 : j = i <;> simp [diskWrite, diskFind, h2]
    · by_cases h2 : j = i
      · subst h2
        simp [diskWrite, diskFind, h1]
      · simp [diskWrite, diskFind, h1, h2, ih]

theorem scanSegs_all_miss (d : Disk) (k : Key) (l : List Nat)
    (h : ∀ id ∈ l, get_sstable d id k = .ok none) : scanSegs d k l = .ok none := by
  induction l with
  | nil => rfl
  | cons i rest ih =>
    rw [scanSegs, h i (List.mem_cons_self i rest)]
    exact ih (fun j hj => h j (List.mem_cons_of_mem _ hj))

theorem flush_memtable_nil (s : Sys) (h : s.tree.memtable = []) :
    flush_memtable s = s := by
  rw [flush_memtable, if_pos]
  rw [h]
  rfl

theorem flush_memtable_spec (s : Sys) (h : s.tree.memtable ≠ [])
    (hfresh : diskFind s.disk (s.tree.sstable_mgr.next_sstable_id + 1) = none) :
    (flush_memtable s).tree.memtable = []
    ∧ (flush_memtable s).tree.memtable_limit = s.tree.memtable_limit
    ∧ (flush_memtable s).tree.sstable_mgr.next_sstable_id
        = s.tree.sstable_mgr.next_sstable_id + 1
    ∧ (flush_memtable s).tree.sstable_mgr.sstables
        = s.tree.sstable_mgr.sstables ++ [s.tree.sstable_mgr.next_sstable_id + 1]
    ∧ (flush_memtable s).tree.sstable_mgr.compaction_trigger
        = s.tree.sstable_mgr.compaction_trigger
    ∧ (∀ j, diskFind (flush_memtable s).disk j =
        if j = s.tree.sstable_mgr.next_sstable_id + 1
        then some (writeLines s.tree.memtable)
        else diskFind s.disk j) := by
  have hne : s.tree.memtable.isEmpty = false := by
    cases hmt : s.tree.memtable with
    | nil => exact absurd hmt h
    | cons a t => rfl
  rw [flush_memtable, if_neg (by rw [hne]; exact Bool.false_ne_true)]
  refine ⟨rfl, rfl, rfl, rfl, rfl, ?_⟩
  intro j
  show diskFind (flushWrite s).disk j = _
  rw [flushWrite]
  simp only [new_sstable, hfresh, Option.isSome_none, Bool.false_eq_true, if_false,
    diskFind_diskWrite]
  by_cases hj : j = s.tree.sstable_mgr.next_sstable_id + 1
  · simp [hj]
  · simp [hj]

theorem get_put_self (s : Sys) (k v : String)
    (hwf : wfMt (mapInsert s.tree.memtable k (some v)) = true)
    (hfresh : diskFind s.disk (s.tree.sstable_mgr.next_sstable_id + 1) = none) :
    Sys.get (put s k v) k = .ok (some v) := by
  rw [put]
  by_cases hlen : (mapInsert s.tree.memtable k (some v)).length = s.tree.memtable_limit
  · rw [if_pos hlen]
    set s1 : Sys :=
      { s with tree := { s.tree with memtable := mapInsert s.tree.memtable k (some v) } }
      with hs1
    obtain ⟨hm, hl, hn, hss, hct, hd⟩ :=
      flush_memtable_spec s1 (mapInsert_ne_nil _ _ _) hfresh
    rw [Sys.get, hm]
    show scanSegs (flush_memtable s1).disk k
      (flush_memtable s1).tree.sstable_mgr.sstables.reverse = .ok (some v)
    rw [hss]
    rw [List.reverse_append]
    show scanSegs (flush_memtable s1).disk k
      ((s.tree.sstable_mgr.next_sstable_id + 1) :: s.tree.sstable_mgr.sstables.reverse)
      = .ok (some v)
    rw [scanSegs, get_sstable, hd, if_pos rfl]
    show (match scanLines k (writeLines (mapInsert s.tree.memtable k (some v))) with
      | Except.error e => Except.error e
      | Except.ok (some v) => Except.ok (some v)
      | Except.ok none =>
          scanSegs (flush_memtable s1).disk k s.tree.sstable_mgr.sstables.reverse)
      = Except.ok (some v)
    rw [scanLines_writeLines _ _ hwf, mapGet_insert_self]
    rfl
  · rw [if_neg hlen, Sys.get]
    show (match mapGet (mapInsert s.tree.memtable k (some v)) k with
      | some (some v) => Except.ok (some v)
      | some none => Except.ok none
      | none => scanSegs s.disk k s.tree.sstable_mgr.sstables.reverse) = .ok (some v)
    rw [mapGet_insert_self]

theorem get_put_self_flushed (s0 : Sys) (k v : String)
    (hk : wfKey k = true) (hv : wfVal v = true)
    (hm : s0.tree.memtable = [])
    (hfresh : diskFind s0.disk (s0.tree.sstable_mgr.next_sstable_id + 1) = none) :
    Sys.get (put s0 k v) k = .ok (some v) := by
  apply get_put_self
  · rw [hm]
    simp [mapInsert, wfMt, wfEntry, hk, hv]
  · exact hfresh

/-- C6: for every key `k` and values `v1`, `v2` (the key and the second
value well formed for the segment format, and the data directory holding no
file for a future segment id), `put(k, v1); put(k, v2); get(k)` returns
`v2`, both when no flush is interposed between the two puts and when
`flush_memtable` moves `v1` into a segment between them. -/
theorem c6_last_write_wins (s : Sys) (k v1 v2 : String)
    (hwf : wfMt s.tree.memtable = true)
    (hk : wfKey k = true) (hv : wfVal v2 = true)
    (hfresh : ∀ j, s.tree.sstable_mgr.next_sstable_id < j → diskFind s.disk j = none) :
    Sys.get (put (put s k v1) k v2) k = .ok (some v2)
    ∧ Sys.get (put (flush_memtable (put s k v1)) k v2) k = .ok (some v2) := by
  by_cases hlen1 :
      (mapInsert s.tree.memtable k (some v1)).length = s.tree.memtable_limit
  · have hput1 : put s k v1 = flush_memtable
        { s with tree := { s.tree with memtable := mapInsert s.tree.memtable k (some v1) } } := by
      rw [put, if_pos hlen1]
    set s1 : Sys :=
      { s with tree := { s.tree with memtable := mapInsert s.tree.memtable k (some v1) } }
      with hs1
    have hs1n : s1.tree.sstable_mgr.next_sstable_id
        = s.tree.sstable_mgr.next_sstable_id := rfl
    have hs1d : s1.disk = s.disk := rfl
    obtain ⟨hm, hl, hn, hss, hct, hd⟩ :=
      flush_memtable_spec s1 (mapInsert_ne_nil _ _ _)
        (hfresh _ (Nat.lt_succ_self _))
    have hfreshT : diskFind (flush_memtable s1).disk
        ((flush_memtable s1).tree.sstable_mgr.next_sstable_id + 1) = none := by
      rw [hn, hs1n, hd, hs1n, if_neg (by omega), hs1d]
      exact hfresh _ (by omega)
    constructor
    · rw [hput1]
      exact get_put_self_flushed _ _ _ hk hv hm hfreshT
    · rw [hput1, flush_memtable_nil _ hm]
      exact get_put_self_flushed _ _ _ hk hv hm hfreshT
  · have hput1 : put s k v1 =
        { s with tree := { s.tree with memtable := mapInsert s.tree.memtable k (some v1) } } := by
      rw [put, if_neg hlen1]
    set s1 : Sys :=
      { s with tree := { s.tree with memtable := mapInsert s.tree.memtable k (some v1) } }
      with hs1
    have hentry : wfEntry (k, some v2) = true := by
      rw [wfEntry, Bool.and_eq_true]
      exact ⟨hk, hv⟩
    constructor
    · rw [hput1]
      apply get_put_self
      · show wfMt (mapInsert (mapInsert s.tree.memtable k (some v1)) k (some v2)) = true
        rw [mapInsert_mapInsert]
        exact wfMt_insert _ _ _ hwf hentry
      · exact hfresh _ (Nat.lt_succ_self _)
    · rw [hput1]
      have hs1n : s1.tree.sstable_mgr.next_sstable_id
          = s.tree.sstable_mgr.next_sstable_id := rfl
      have hs1d : s1.disk = s.disk := rfl
      obtain ⟨hm, hl, hn, hss, hct, hd⟩ :=
        flush_memtable_spec s1 (mapInsert_ne_nil _ _ _)
          (hfresh _ (Nat.lt_succ_self _))
      have hfreshT : diskFind (flush_memtable s1).disk
          ((flush_memtable s1).tree.sstable_mgr.next_sstable_id + 1) = none := by
        rw [hn, hs1n, hd, hs1n, if_neg (by omega), hs1d]
        exact hfresh _ (by omega)
      exact get_put_self_flushed _ _ _ hk hv hm hfreshT

theorem c6_last_write_wins_witness :
    Sys.get (put (put { tree := LSMTree.new [], disk := [] } "a" "x") "a" "y") "a"
      = .ok (some "y")
    ∧ Sys.get (put (flush_memtable
        (put { tree := LSMTree.new [], disk := [] } "a" "x")) "a" "y") "a"
      = .ok (some "y") :=
  c6_last_write_wins { tree := LSMTree.new [], disk := [] } "a" "x" "y"
    (by decide) (by decide) (by decide) (fun j hj => rfl)

/-- C7: for every well-formed key `k`, after `put(k, v); delete(k)` a `get(k)`
returns "not found", both while the tombstone is still in the memtable and
after one `flush_memtable` writes the state produced by the two operations
into a segment — provided the put does not itself hit the flush threshold
(so both operations land in the same segment, as the claim describes), no
already-cataloged segment answers for `k`, and the next segment id is not
already cataloged or present on disk. -/
theorem c7_delete_shadows (s : Sys) (k v : String)
    (hwf : wfMt s.tree.memtable = true) (hk : wfKey k = true)
    (hnoauto : (mapInsert s.tree.memtable k (some v)).length ≠ s.tree.memtable_limit)
    (hmiss : ∀ id ∈ s.tree.sstable_mgr.sstables, get_sstable s.disk id k = .ok none)
    (hreg : s.tree.sstable_mgr.next_sstable_id + 1 ∉ s.tree.sstable_mgr.sstables)
    (hfresh : diskFind s.disk (s.tree.sstable_mgr.next_sstable_id + 1) = none) :
    Sys.get (delete (put s k v) k) k = .ok none
    ∧ Sys.get (flush_memtable (delete (put s k v) k)) k = .ok none := by
  have hput1 : put s k v =
      { s with tree := { s.tree with memtable := mapInsert s.tree.memtable k (some v) } } := by
    rw [put, if_neg hnoauto]
  have hdel : delete (put s k v) k =
      { s with tree := { s.tree with memtable := mapInsert s.tree.memtable k none } } := by
    rw [hput1, delete]
    dsimp only
    rw [mapInsert_mapInsert]
  rw [hdel]
  set s2 : Sys :=
    { s with tree := { s.tree with memtable := mapInsert s.tree.memtable k none } }
    with hs2
  have hwf2 : wfMt (mapInsert s.tree.memtable k none) = true :=
    wfMt_insert _ _ _ hwf (by rw [wfEntry]; exact hk)
  constructor
  · rw [Sys.get]
    show (match mapGet (mapInsert s.tree.memtable k none) k with
      | some (some v) => Except.ok (some v)
      | some none => Except.ok none
      | none => scanSegs s2.disk k s2.tree.sstable_mgr.sstables.reverse) = .ok none
    rw [mapGet_insert_self]
  · have hs2n : s2.tree.sstable_mgr.next_sstable_id
        = s.tree.sstable_mgr.next_sstable_id := rfl
    have hs2d : s2.disk = s.disk := rfl
    obtain ⟨hm, hl, hn, hss, hct, hd⟩ :=
      flush_memtable_spec s2 (mapInsert_ne_nil _ _ _) hfresh
    rw [Sys.get, hm]
    show scanSegs (flush_memtable s2).disk k
      (flush_memtable s2).tree.sstable_mgr.sstables.reverse = .ok none
    rw [hss, hs2n, List.reverse_append]
    show scanSegs (flush_memtable s2).disk k
      ((s.tree.sstable_mgr.next_sstable_id + 1) :: s2.tree.sstable_mgr.sstables.reverse)
      = .ok none
    rw [scanSegs, get_sstable, hd, hs2n, if_pos rfl]
    show (match scanLines k (writeLines s2.tree.memtable) with
      | Except.error e => Except.error e
      | Except.ok (some v) => Except.ok (some v)
      | Except.ok none =>
          scanSegs (flush_memtable s2).disk k s2.tree.sstable_mgr.sstables.reverse)
      = Except.ok none
    have hscan : scanLines k (writeLines s2.tree.memtable) = .ok none := by
      show scanLines k (writeLines (mapInsert s.tree.memtable k none)) = .ok none
      rw [scanLines_writeLines _ _ hwf2, mapGet_insert_self]
      rfl
    rw [hscan]
    apply scanSegs_all_miss
    intro i hi
    have hi2 : i ∈ s.tree.sstable_mgr.sstables := by
      rw [List.mem_reverse] at hi
      exact hi
    have hne_id : ¬ i = s.tree.sstable_mgr.next_sstable_id + 1 := by
      intro he
      rw [he] at hi2
      exact hreg hi2
    have hms := hmiss i hi2
    rw [get_sstable] at hms
    rw [get_sstable, hd, hs2n, if_neg hne_id, hs2d]
    exact hms

theorem c7_delete_shadows_witness :
    Sys.get (delete (put { tree := LSMTree.new [], disk := [] } "a" "b") "a") "a"
      = .ok none
    ∧ Sys.get (flush_memtable
        (delete (put { tree := LSMTree.new [], disk := [] } "a" "b") "a")) "a"
      = .ok none :=
  c7_delete_shadows { tree := LSMTree.new [], disk := [] } "a" "b"
    (by decide) (by decide) (by decide) (by decide) (by decide) rfl

/-- C8: if the engine's buffer is empty (as it is right after a flush) and
the catalog matches the ascending ids of the segment files on disk (the
catalog/directory consistency every completed operation maintains), then
dropping the engine and constructing a new one over the same data directory
yields an engine whose recovered catalog answers every `get` exactly as the
old instance did, and whose memtable is empty. -/
theorem c8_recovery_roundtrip (s : Sys)
    (hmt : s.tree.memtable = [])
    (hcat : s.tree.sstable_mgr.sstables
      = List.insertionSort (fun a b => a ≤ b) (s.disk.map Prod.fst)) :
    (∀ k, Sys.get { tree := LSMTree.new s.disk, disk := s.disk } k = Sys.get s k)
    ∧ (LSMTree.new s.disk).memtable = [] := by
  constructor
  · intro k
    have h1 : Sys.get { tree := LSMTree.new s.disk, disk := s.disk } k
        = scanSegs s.disk k
            (List.insertionSort (fun a b => a ≤ b) (s.disk.map Prod.fst)).reverse := rfl
    have h2 : Sys.get s k = scanSegs s.disk k s.tree.sstable_mgr.sstables.reverse := by
      rw [Sys.get, hmt]
      rfl
    rw [h1, h2, hcat]
  · rfl

theorem c8_recovery_roundtrip_witness :
    Sys.get { tree := LSMTree.new [(1, ["a:b"])], disk := [(1, ["a:b"])] } "a"
      = Sys.get (⟨⟨[], 10, ⟨1, [1], 8⟩⟩, [(1, ["a:b"])]⟩ : Sys) "a"
    ∧ (LSMTree.new [(1, ["a:b"])]).memtable = [] :=
  ⟨(c8_recovery_roundtrip (⟨⟨[], 10, ⟨1, [1], 8⟩⟩, [(1, ["a:b"])]⟩ : Sys)
      rfl (by decide)).1 "a",
   (c8_recovery_roundtrip (⟨⟨[], 10, ⟨1, [1], 8⟩⟩, [(1, ["a:b"])]⟩ : Sys)
      rfl (by decide)).2⟩

theorem putSeq_no_flush (ps : List (String × String)) (s : Sys)
    (hlen : s.tree.memtable_limit ≤ s.tree.memtable.length)
    (hnd : (ps.map Prod.fst).Nodup)
    (hfr : ∀ p ∈ ps, mapGet s.tree.memtable p.1 = none) :
    (putSeq s ps).tree.sstable_mgr = s.tree.sstable_mgr
    ∧ (putSeq s ps).disk = s.disk
    ∧ (putSeq s ps).tree.memtable.length = s.tree.memtable.length + ps.length
    ∧ (putSeq s ps).tree.memtable_limit = s.tree.memtable_limit := by
  induction ps generalizing s with
  | nil => exact ⟨rfl, rfl, rfl, rfl⟩
  | cons p rest ih =>
    obtain ⟨k, v⟩ := p
    have hfrk : mapGet s.tree.memtable k = none := hfr (k, v) (List.mem_cons_self _ _)
    have hlen1 : (mapInsert s.tree.memtable k (some v)).length
        = s.tree.memtable.length + 1 := mapGet_none_length _ _ _ hfrk
    have hne : (mapInsert s.tree.memtable k (some v)).length
        ≠ s.tree.memtable_limit := by omega
    have hstep : putSeq s ((k, v) :: rest) = putSeq (put s k v) rest := rfl
    have hput : put s k v =
        { s with tree := { s.tree with memtable := mapInsert s.tree.memtable k (some v) } } := by
      rw [put, if_neg hne]
    set s1 : Sys :=
      { s with tree := { s.tree with memtable := mapInsert s.tree.memtable k (some v) } }
      with hs1
    have hnd1 : (rest.map Prod.fst).Nodup := (List.nodup_cons.mp hnd).2
    have hknot : k ∉ rest.map Prod.fst := (List.nodup_cons.mp hnd).1
    have hfr1 : ∀ p ∈ rest, mapGet s1.tree.memtable p.1 = none := by
      intro q hq
      have hqk : q.1 ≠ k := by
        intro he
        apply hknot
        rw [← he]
        exact List.mem_map_of_mem Prod.fst hq
      show mapGet (mapInsert s.tree.memtable k (some v)) q.1 = none
      rw [mapGet_insert_ne _ _ _ _ hqk]
      exact hfr q (List.mem_cons_of_mem _ hq)
    have hlen2 : s1.tree.memtable_limit ≤ s1.tree.memtable.length := by
      show s.tree.memtable_limit ≤ (mapInsert s.tree.memtable k (some v)).length
      omega
    obtain ⟨h1, h2, h3, h4⟩ := ih s1 hlen2 hnd1 hfr1
    rw [hstep, hput]
    refine ⟨h1, h2, ?_, h4⟩
    rw [h3]
    show (mapInsert s.tree.memtable k (some v)).length + rest.length
      = s.tree.memtable.length + ((k, v) :: rest).length
    rw [hlen1, List.length_cons]
    omega

/-- C10: the automatic flush inside `put` fires only when the insertion
makes the memtable length exactly equal to `memtable_limit`, and `delete`
never checks the limit: a `delete` changes nothing but the memtable, a
`put` whose insertion does not land exactly on the limit is a pure insert,
and once the buffer length has reached (or passed) the limit, any sequence
of puts of distinct fresh keys triggers no flush and grows the buffer
without bound. -/
theorem c10_flush_trigger (s : Sys) (k v : String) (ps : List (String × String))
    (hput : (mapInsert s.tree.memtable k (some v)).length ≠ s.tree.memtable_limit)
    (hlen : s.tree.memtable_limit ≤ s.tree.memtable.length)
    (hnd : (ps.map Prod.fst).Nodup)
    (hfr : ∀ p ∈ ps, mapGet s.tree.memtable p.1 = none) :
    (delete s k).tree.sstable_mgr = s.tree.sstable_mgr
    ∧ (delete s k).disk = s.disk
    ∧ put s k v
        = { s with tree := { s.tree with memtable := mapInsert s.tree.memtable k (some v) } }
    ∧ (putSeq s ps).tree.sstable_mgr = s.tree.sstable_mgr
    ∧ (putSeq s ps).disk = s.disk
    ∧ (putSeq s ps).tree.memtable.length = s.tree.memtable.length + ps.length := by
  obtain ⟨h1, h2, h3, h4⟩ := putSeq_no_flush ps s hlen hnd hfr
  exact ⟨rfl, rfl, by rw [put, if_neg hput], h1, h2, h3⟩

theorem c10_flush_trigger_witness :
    (putSeq (⟨⟨[("x", none)], 1, SSTableManager.new⟩, []⟩ : Sys)
      [("a", "1"), ("b", "2")]).tree.memtable.length = 1 + 2
    ∧ (putSeq (⟨⟨[("x", none)], 1, SSTableManager.new⟩, []⟩ : Sys)
      [("a", "1"), ("b", "2")]).tree.sstable_mgr
        = ((⟨⟨[("x", none)], 1, SSTableManager.new⟩, []⟩ : Sys)).tree.sstable_mgr :=
  ⟨(c10_flush_trigger _ "k" "v" [("a", "1"), ("b", "2")]
      (by decide) (by decide) (by decide) (by decide)).2.2.2.2.2,
   (c10_flush_trigger _ "k" "v" [("a", "1"), ("b", "2")]
      (by decide) (by decide) (by decide) (by decide)).2.2.2.1⟩

/-- C3 counterexample: at a concrete state with one pending write
(`c3Sys`), the claimed property — that no reachable intermediate state of
the flush has an already-empty buffer while the new segment id (here `1`)
is not yet registered — is false: the state after the buffer clear is
exactly such a state, because `flush_memtable` clears the memtable before
registering the id. -/
theorem c3_clear_before_register_cex :
    ¬ (∀ st ∈ flushStates c3Sys, st.tree.memtable = [] →
        (c3Sys.tree.sstable_mgr.next_sstable_id + 1) ∈ st.tree.sstable_mgr.sstables) := by
  decide

theorem flushWrite_disk (s : Sys) : (flushWrite s).disk
    = diskWrite (new_sstable s.tree.sstable_mgr s.disk).2
        (s.tree.sstable_mgr.next_sstable_id + 1)
        (((diskFind (new_sstable s.tree.sstable_mgr s.disk).2
            (s.tree.sstable_mgr.next_sstable_id + 1)).getD [])
          ++ writeLines s.tree.memtable) := rfl

/-- C3 (amended): in every non-empty flush whose allocated segment id is
not already cataloged, the effects occur in the order sync file, clear
buffer, register id — not sync, register, clear: the trace of intermediate
states shows the file durable throughout, and the middle state (after the
clear, before the registration) already has an empty buffer while the
segment id is not yet registered; the final trace state is the result of
`flush_memtable`. -/
theorem c3_flush_order (s : Sys) (h : s.tree.memtable ≠ [])
    (hreg : s.tree.sstable_mgr.next_sstable_id + 1 ∉ s.tree.sstable_mgr.sstables) :
    (flushStates s).map (fun st =>
        ((diskFind st.disk (s.tree.sstable_mgr.next_sstable_id + 1)).isSome,
         st.tree.memtable.isEmpty,
         decide ((s.tree.sstable_mgr.next_sstable_id + 1) ∈ st.tree.sstable_mgr.sstables)))
      = [(true, false, false), (true, true, false), (true, true, true)]
    ∧ (flushStates s).get? 2 = some (flush_memtable s) := by
  have hne : s.tree.memtable.isEmpty = false := by
    cases hmt : s.tree.memtable with
    | nil => exact absurd hmt h
    | cons a t => rfl
  have hfs : flushStates s = [flushWrite s, flushClear (flushWrite s),
      flushRegister (flushClear (flushWrite s))] := by
    rw [flushStates, if_neg (by rw [hne]; exact Bool.false_ne_true)]
  have hfm : flush_memtable s = flushRegister (flushClear (flushWrite s)) := by
    rw [flush_memtable, if_neg (by rw [hne]; exact Bool.false_ne_true)]
  have hwm : (flushWrite s).tree.memtable = s.tree.memtable := rfl
  have hws : (flushWrite s).tree.sstable_mgr.sstables = s.tree.sstable_mgr.sstables := rfl
  have hcm : (flushClear (flushWrite s)).tree.memtable = [] := rfl
  have hcs : (flushClear (flushWrite s)).tree.sstable_mgr.sstables
      = s.tree.sstable_mgr.sstables := rfl
  have hcd : (flushClear (flushWrite s)).disk = (flushWrite s).disk := rfl
  have hrm : (flushRegister (flushClear (flushWrite s))).tree.memtable = [] := rfl
  have hrs : (flushRegister (flushClear (flushWrite s))).tree.sstable_mgr.sstables
      = s.tree.sstable_mgr.sstables ++ [s.tree.sstable_mgr.next_sstable_id + 1] := rfl
  have hrd : (flushRegister (flushClear (flushWrite s))).disk = (flushWrite s).disk := rfl
  rw [hfs, hfm]
  refine ⟨?_, rfl⟩
  rw [List.map_cons, List.map_cons, List.map_cons, List.map_nil]
  rw [hwm, hws, hcm, hcs, hcd, hrm, hrs, hrd, flushWrite_disk]
  simp [diskFind_diskWrite, hne, decide_eq_false hreg]

theorem c3_flush_order_witness :
    (flushStates c3Sys).map (fun st =>
        ((diskFind st.disk (c3Sys.tree.sstable_mgr.next_sstable_id + 1)).isSome,
         st.tree.memtable.isEmpty,
         decide ((c3Sys.tree.sstable_mgr.next_sstable_id + 1) ∈ st.tree.sstable_mgr.sstables)))
      = [(true, false, false), (true, true, false), (true, true, true)]
    ∧ (flushStates c3Sys).get? 2 = some (flush_memtable c3Sys) :=
  c3_flush_order c3Sys (by decide) (by decide)

/-- C5 counterexample: `put` accepts a key containing the field delimiter
rather than rejecting it — the write lands in the memtable and the engine
reports success — and the flush encoding of that entry produces the line
`"a:b:v"`, which decodes to the different pair `("a", "b")`: the reserved
delimiter is written into the segment format, not rejected at the `put`
boundary. -/
theorem c5_no_rejection_cex :
    mapGet (put { tree := LSMTree.new [], disk := [] } "a:b" "v").tree.memtable "a:b"
      = some (some "v")
    ∧ writeLines [("a:b", some "v")] = ["a:b:v"]
    ∧ read_kv_line "a:b:v" = some ("a", "b") := by decide

/-- C5 (amended): `put` and `delete` perform no validation of the key or
value: any key/value — including ones containing the `':'` delimiter or
the reserved tombstone marker — is accepted into the memtable unchanged,
and the flush encoding writes it verbatim into the segment format
(rejection is left to callers, a documented format limitation). -/
theorem c5_no_validation (s : Sys) (k v : String)
    (hnoflush : (mapInsert s.tree.memtable k (some v)).length ≠ s.tree.memtable_limit) :
    mapGet (put s k v).tree.memtable k = some (some v)
    ∧ mapGet (delete s k).tree.memtable k = some none
    ∧ writeLines [(k, some v)] = [k ++ ":" ++ v]
    ∧ writeLines [(k, none)] = [k ++ ":" ++ tombstoneStr] := by
  refine ⟨?_, ?_, rfl, rfl⟩
  · rw [put, if_neg hnoflush]
    show mapGet (mapInsert s.tree.memtable k (some v)) k = some (some v)
    exact mapGet_insert_self _ _ _
  · show mapGet (mapInsert s.tree.memtable k none) k = some none
    exact mapGet_insert_self _ _ _

theorem c5_no_validation_witness :
    mapGet (put { tree := LSMTree.new [], disk := [] } "a:b" "🪦").tree.memtable "a:b"
      = some (some "🪦")
    ∧ mapGet (delete { tree := LSMTree.new [], disk := [] } "a:b").tree.memtable "a:b"
      = some none
    ∧ writeLines [("a:b", some "🪦")] = ["a:b" ++ ":" ++ "🪦"]
    ∧ writeLines [("a:b", none)] = ["a:b" ++ ":" ++ tombstoneStr] :=
  c5_no_validation { tree := LSMTree.new [], disk := [] } "a:b" "🪦" (by decide)

/-- C9: when the catalog holds fewer than two segments,
`compact_sstables` is a no-op: it returns without error and leaves the
whole state — the id counter, the catalog and every segment file —
unchanged. -/
theorem c9_compact_noop (s : Sys) (h : s.tree.sstable_mgr.sstables.length < 2) :
    compact_sstables s = .ok s := by
  rw [compact_sstables.eq_def]
  rcases hm : s.tree.sstable_mgr.sstables with _ | ⟨x, _ | ⟨y, rest⟩⟩
  · rfl
  · rfl
  · rw [hm] at h
    rw [List.length_cons, List.length_cons] at h
    omega

theorem c9_compact_noop_witness :
    ({ tree := LSMTree.new [], disk := [] } : Sys).tree.sstable_mgr.sstables.length < 2
    ∧ compact_sstables { tree := LSMTree.new [], disk := [] }
        = .ok { tree := LSMTree.new [], disk := [] } :=
  ⟨by decide, c9_compact_noop _ (by decide)⟩

/-- C1 (code evaluation at the failing input): in `c1Sys` the memtable
misses `"k"`, the newer segment (id 2) holds `"k"` as a tombstone line and
the older segment (id 1) holds the live value `"v"`; yet `get` returns the
old value `"v"` instead of "not found", because `get_sstable` reports a
found tombstone and a missing key identically as `none` and the read loop
keeps scanning older segments on `none`. -/
theorem c1_tombstone_not_shadowing :
    mapGet c1Sys.tree.memtable "k" = none
    ∧ c1Sys.tree.sstable_mgr.sstables = [1, 2]
    ∧ read_kv_line "k:🪦" = some ("k", tombstoneStr)
    ∧ get_sstable c1Sys.disk 2 "k" = .ok none
    ∧ get_sstable c1Sys.disk 1 "k" = .ok (some "v")
    ∧ Sys.get c1Sys "k" = .ok (some "v") := by decide

/-- C2 (code evaluation at the failing input): over a data directory
already holding segment files `1.sst` and `2.sst`, `recover` installs the
catalog `[1, 2]` but leaves `next_sstable_id` at `0`, so the next
`new_sstable` hands out id `1` — not an id strictly greater than the
maximum id `2` on disk — and a flush then appends to the existing file
`1.sst` and registers the duplicate id at the back of the catalog. -/
theorem c2_id_reuse_after_recover :
    (LSMTree.new c2Disk).sstable_mgr.sstables = [1, 2]
    ∧ (LSMTree.new c2Disk).sstable_mgr.next_sstable_id = 0
    ∧ (new_sstable (LSMTree.new c2Disk).sstable_mgr c2Disk).1.2 = 1
    ∧ (flush_memtable c2Sys).disk = [(1, ["a:b", "x:y"]), (2, ["c:d"])]
    ∧ (flush_memtable c2Sys).tree.sstable_mgr.sstables = [1, 2, 1] := by decide

/-- C4: on two cataloged segments where the older (id 1) holds
`k1 ↦ "old"` and a tombstone for `k2` and the newer (id 2) holds
`k1 ↦ "new"` and `k3 ↦ "v3"`, compaction terminates normally (`.ok`) and
replaces the pair by the single segment (id 2) containing exactly
`k1 ↦ "new"` and `k3 ↦ "v3"`: the stale `k1 ↦ "old"` is superseded and the
`k2` tombstone is dropped, not propagated. -/
theorem c4_compaction_scenario :
    read_kv_line "k2:🪦" = some ("k2", tombstoneStr)
    ∧ compact_sstables c4Sys =
        .ok (⟨⟨[], 10, ⟨2, [2], 8⟩⟩, [(2, ["k1:new", "k3:v3"])]⟩ : Sys) := by decide
